import Mathlib

set_option linter.unusedVariables false

/-! Shallow embedding of the save-file decoder and byte-accounting pass in
`src/lib.rs` of the cpsaveinfo crate.  Byte streams are `List Nat` (each
element one byte value); Rust `u32` arithmetic is `Nat` with explicit
`% 2 ^ 32`; `i32`/`i64` values are `Int`.  Fallible reads return
`Except Err`, where `Err` covers the two `std::io` error kinds the code
produces: `truncatedInput` (read past end of stream, `UnexpectedEof`) and
`invalidText` (`InvalidData` from UTF-8 / UTF-16 validation). -/

inductive Err where
  | truncatedInput
  | invalidText
deriving DecidableEq

/-- One byte from the stream (`read_u8`); fails when the stream is exhausted. -/
def read_u8 : List Nat → Except Err (Nat × List Nat)
  | [] => .error .truncatedInput
  | b :: rest => .ok (b, rest)

/-- Final step of `read_packed_int`: `Ok(if sign { -val } else { val })`. -/
def pfin (sign : Bool) (val : Nat) (s : List Nat) : Except Err (Int × List Nat) :=
  .ok (if sign then -(val : Int) else (val : Int), s)

/-- Embedding of `read_packed_int` (src/lib.rs lines 25-46).  The magnitude
is accumulated in `val` exactly as the nested `if` ladder of the source does
(`val` is an `i64` there and stays below `2 ^ 36`, so `Nat` is faithful). -/
def read_packed_int (s : List Nat) : Except Err (Int × List Nat) := do
  let (a, s) ← read_u8 s
  let sign := decide (0x80 ≤ a)
  let val0 := a &&& 0x3F
  if a &&& 0x40 ≠ 0 then
    let (b, s) ← read_u8 s
    let val1 := val0 ||| ((b &&& 0x7F) <<< 6)
    if 0x80 ≤ b then
      let (c, s) ← read_u8 s
      let val2 := val1 ||| ((c &&& 0x7F) <<< 13)
      if 0x80 ≤ c then
        let (d, s) ← read_u8 s
        let val3 := val2 ||| ((d &&& 0x7F) <<< 20)
        if 0x80 ≤ d then
          let (e, s) ← read_u8 s
          pfin sign (val3 ||| (e <<< 27)) s
        else pfin sign val3 s
      else pfin sign val2 s
    else pfin sign val1 s
  else pfin sign val0 s

/-- Model of `read_exact` into a buffer of `n` bytes. -/
def read_bytes : Nat → List Nat → Except Err (List Nat × List Nat)
  | 0, s => .ok ([], s)
  | n + 1, s => do
    let (b, s) ← read_u8 s
    let (bs, s) ← read_bytes n s
    .ok (b :: bs, s)

/-- One little-endian `u16` (as read by `read_u16_into::<LE>`). -/
def read_u16_le (s : List Nat) : Except Err (Nat × List Nat) := do
  let (b0, s) ← read_u8 s
  let (b1, s) ← read_u8 s
  .ok (b0 + b1 * 0x100, s)

/-- Model of `read_u16_into::<LE>` into a buffer of `n` units. -/
def read_u16s : Nat → List Nat → Except Err (List Nat × List Nat)
  | 0, s => .ok ([], s)
  | n + 1, s => do
    let (u, s) ← read_u16_le s
    let (us, s) ← read_u16s n s
    .ok (u :: us, s)

/-- Model of `String::from_utf8`: validates the bytes as UTF-8 and returns
the decoded unicode scalar values, rejecting overlong forms, surrogate code
points and values above 0x10FFFF exactly as the Rust standard library does. -/
def utf8Decode : List Nat → Option (List Nat)
  | [] => some []
  | b :: rest =>
    if b < 0x80 then
      (utf8Decode rest).map (b :: ·)
    else if b < 0xC2 then none
    else if b < 0xE0 then
      match rest with
      | c1 :: rest =>
        if 0x80 ≤ c1 ∧ c1 < 0xC0 then
          (utf8Decode rest).map (((b - 0xC0) * 0x40 + (c1 - 0x80)) :: ·)
        else none
      | [] => none
    else if b < 0xF0 then
      match rest with
      | c1 :: c2 :: rest =>
        if (if b = 0xE0 then 0xA0 ≤ c1 ∧ c1 < 0xC0
            else if b = 0xED then 0x80 ≤ c1 ∧ c1 < 0xA0
            else 0x80 ≤ c1 ∧ c1 < 0xC0) ∧ 0x80 ≤ c2 ∧ c2 < 0xC0 then
          (utf8Decode rest).map
            (((b - 0xE0) * 0x1000 + (c1 - 0x80) * 0x40 + (c2 - 0x80)) :: ·)
        else none
      | _ => none
    else if b ≤ 0xF4 then
      match rest with
      | c1 :: c2 :: c3 :: rest =>
        if (if b = 0xF0 then 0x90 ≤ c1 ∧ c1 < 0xC0
            else if b = 0xF4 then 0x80 ≤ c1 ∧ c1 < 0x90
            else 0x80 ≤ c1 ∧ c1 < 0xC0) ∧
            0x80 ≤ c2 ∧ c2 < 0xC0 ∧ 0x80 ≤ c3 ∧ c3 < 0xC0 then
          (utf8Decode rest).map
            (((b - 0xF0) * 0x40000 + (c1 - 0x80) * 0x1000 +
              (c2 - 0x80) * 0x40 + (c3 - 0x80)) :: ·)
        else none
      | _ => none
    else none

/-- Model of `String::from_utf16`: validates the 16-bit units, pairing
surrogates, and returns the decoded unicode scalar values. -/
def utf16Decode : List Nat → Option (List Nat)
  | [] => some []
  | u :: rest =>
    if u < 0xD800 ∨ 0xE000 ≤ u then (utf16Decode rest).map (u :: ·)
    else if u < 0xDC00 then
      match rest with
      | l :: rest =>
        if 0xDC00 ≤ l ∧ l < 0xE000 then
          (utf16Decode rest).map
            ((0x10000 + (u - 0xD800) * 0x400 + (l - 0xDC00)) :: ·)
        else none
      | [] => none
    else none

/-- The modulus 2 ^ 32 of Rust `u32` arithmetic. -/
def U32 : Nat := 2 ^ 32

/-- Model of a Rust `as usize` cast on the wasm32 target, where `usize` is
32 bits wide: the integer value is reduced modulo `2 ^ 32` (negative
values wrap to large positive ones). -/
def usizeCast (x : Int) : Nat := (x % (U32 : Int)).toNat

/-- Embedding of `read_pstr` (src/lib.rs lines 48-61).  Strings are kept as
their list of unicode scalar values.  The payload lengths are the source's
`-count as usize` and `count as usize` (lines 52 and 57): on the wasm32
target this truncates the `i64` count modulo `2 ^ 32`. -/
def read_pstr (s : List Nat) : Except Err (List Nat × List Nat) := do
  let (count, s) ← read_packed_int s
  if count < 0 then
    let (buf, s) ← read_bytes (usizeCast (-count)) s
    match utf8Decode buf with
    | some str => .ok (str, s)
    | none => .error .invalidText
  else
    let (buf, s) ← read_u16s (usizeCast count) s
    match utf16Decode buf with
    | some str => .ok (str, s)
    | none => .error .invalidText

/-- Little-endian `u32` (`read_u32::<LE>`). -/
def read_u32_le (s : List Nat) : Except Err (Nat × List Nat) := do
  let (b0, s) ← read_u8 s
  let (b1, s) ← read_u8 s
  let (b2, s) ← read_u8 s
  let (b3, s) ← read_u8 s
  .ok (b0 + b1 * 0x100 + b2 * 0x10000 + b3 * 0x1000000, s)

/-- Reinterpret a `u32` bit pattern as an `i32` value. -/
def i32ofU32 (v : Nat) : Int :=
  if v < 2 ^ 31 then (v : Int) else (v : Int) - 2 ^ 32

/-- Little-endian `i32` (`read_i32::<LE>`). -/
def read_i32_le (s : List Nat) : Except Err (Int × List Nat) := do
  let (v, s) ← read_u32_le s
  .ok (i32ofU32 v, s)

/-- One record of the node table (struct `CPNode`, src/lib.rs lines 70-77). -/
structure CPNode where
  name : List Nat
  next_idx : Int
  child_idx : Int
  data_offset : Nat
  data_size : Nat
deriving DecidableEq

/-- The parse result (struct `CPSave`, src/lib.rs lines 64-68). -/
structure CPSave where
  payload : List Nat
  nodes : List CPNode
deriving DecidableEq

/-- One iteration of the record loop of `read_save_structure`
(src/lib.rs lines 99-108): name, `next_idx`, `child_idx`, `data_offset`,
`data_size`.  No validation of the link fields is performed. -/
def parseNode (s : List Nat) : Except Err (CPNode × List Nat) := do
  let (name, s) ← read_pstr s
  let (next_idx, s) ← read_i32_le s
  let (child_idx, s) ← read_i32_le s
  let (data_offset, s) ← read_u32_le s
  let (data_size, s) ← read_u32_le s
  .ok (⟨name, next_idx, child_idx, data_offset, data_size⟩, s)

/-- The record loop `for _ in 0..node_count` with the records appended in
file order; any failing record read fails the whole loop. -/
def parseNodes : Nat → List Nat → Except Err (List CPNode × List Nat)
  | 0, s => .ok ([], s)
  | n + 1, s => do
    let (node, s) ← parseNode s
    let (nodes, s) ← parseNodes n s
    .ok (node :: nodes, s)

/-- The footer marker bytes, literal "ENOD". -/
def ENOD : List Nat := [0x45, 0x4E, 0x4F, 0x44]

/-- The node-table marker bytes, literal "EDON". -/
def EDON : List Nat := [0x45, 0x44, 0x4F, 0x4E]

/-- Embedding of `read_save_structure` (src/lib.rs lines 79-113).  The
`Cursor` seeks are modelled with `List.drop` from the full payload:
`SeekFrom::End(-8)` fails iff the payload is shorter than 8 bytes, and
`SeekFrom::Start(tree_offset)` always succeeds (reads past the end then
fail as truncated).  Every fallible step is mapped through `.ok()?`, so the
result is an `Option` exactly as in the source; the record loop runs
`node_count` times, which for a negative `node_count` (`for _ in
0..node_count`) is zero times. -/
def read_save_structure (payload : List Nat) : Option CPSave :=
  if payload.length < 8 then none
  else
    (read_u32_le (payload.drop (payload.length - 8))).toOption.bind
      fun (tree_offset, rest) =>
    (read_bytes 4 rest).toOption.bind fun (sig, _) =>
    if sig ≠ ENOD then none
    else
      (read_bytes 4 (payload.drop tree_offset)).toOption.bind fun (sig2, t) =>
      if sig2 ≠ EDON then none
      else
        (read_packed_int t).toOption.bind fun (node_count, t2) =>
        (parseNodes node_count.toNat t2).toOption.bind fun (nodes, _) =>
        some ⟨payload, nodes⟩

/-- Cast `child_idx as usize`: on the wasm32 target `usize` is 32 bits wide, so
the `i32` value is reduced modulo `2 ^ 32` (negative values wrap to large
positive ones). -/
def idxUsize (i : Int) : Nat := (i % (U32 : Int)).toNat

/-- Outcome of the `while child_idx != -1` loop of `Model::update`
(src/lib.rs lines 149-155), run with `fuel` remaining iterations:
`done sum` models normal exit with the accumulated `child_sum`, `oob`
models the out-of-bounds panic of `save.nodes[child_idx as usize]`, and
`fuelOut` means the loop had not terminated after `fuel` iterations. -/
inductive WalkRes where
  | done : Nat → WalkRes
  | oob : WalkRes
  | fuelOut : WalkRes
deriving DecidableEq

/-- The `child_sum` loop of `Model::update`: `child_sum += child.data_size`
is `u32` addition, hence the `% U32`; indexing `save.nodes[child_idx as
usize]` without a bounds check is modelled by `List.get?`, whose `none`
case is the panic. -/
def walkSum (nodes : List CPNode) : Nat → Int → Nat → WalkRes
  | 0, ci, acc => if ci = -1 then .done acc else .fuelOut
  | fuel + 1, ci, acc =>
    if ci = -1 then .done acc
    else
      match nodes.get? (idxUsize ci) with
      | none => .oob
      | some child => walkSum nodes fuel child.next_idx ((acc + child.data_size) % U32)

/-- Rust release-mode `u32` subtraction `a - b` (wrapping on underflow), as
computed by `total_bytes - child_sum` in src/lib.rs line 162. -/
def u32sub (a b : Nat) : Nat := (a + (U32 - b % U32)) % U32

/-- The two report passes of `Model::update` (src/lib.rs lines 148-164):
for each node of `rest`, in original order, the immediate-children sum over
the full `nodes` list and then the line data
`(name, own_bytes, total_bytes)`.  `none` models a run in which some
node's walk panicked out of bounds or failed to finish within `fuel`
iterations. -/
def accountMap (nodes : List CPNode) (fuel : Nat) :
    List CPNode → Option (List (List Nat × Nat × Nat))
  | [] => some []
  | node :: rest =>
    match walkSum nodes fuel node.child_idx 0 with
    | .done child_sum =>
      (accountMap nodes fuel rest).map
        ((node.name, u32sub node.data_size child_sum, node.data_size) :: ·)
    | _ => none

/-- The byte-accounting pass over a whole decoded save. -/
def accountSave (save : CPSave) (fuel : Nat) : Option (List (List Nat × Nat × Nat)) :=
  accountMap save.nodes fuel save.nodes

/-- A link value is the sentinel -1 or a valid index into the node list. -/
def ValidIdx (nodes : List CPNode) (i : Int) : Prop :=
  i = -1 ∨ (0 ≤ i ∧ i < (nodes.length : Int))

instance (nodes : List CPNode) (i : Int) : Decidable (ValidIdx nodes i) := by
  unfold ValidIdx; infer_instance

/-- Every link field of every node is the sentinel or a valid index. -/
def validLinks (nodes : List CPNode) : Prop :=
  ∀ node ∈ nodes, ValidIdx nodes node.next_idx ∧ ValidIdx nodes node.child_idx

instance (nodes : List CPNode) : Decidable (validLinks nodes) := by
  unfold validLinks; infer_instance

/-- All declared node sizes fit in a `u32` (true of every parsed node). -/
def sizesOk (nodes : List CPNode) : Prop := ∀ node ∈ nodes, node.data_size < U32

instance (nodes : List CPNode) : Decidable (sizesOk nodes) := by
  unfold sizesOk; infer_instance

/-- One step of the sibling chain, totalised: the sentinel and any
out-of-range index step to the sentinel. -/
def stepFn (nodes : List CPNode) (ci : Int) : Int :=
  if ci = -1 then -1
  else
    match nodes.get? (idxUsize ci) with
    | some node => node.next_idx
    | none => -1

/-- The index visited after `k` steps of the sibling chain from `start`. -/
def seqF (nodes : List CPNode) (start : Int) (k : Nat) : Int :=
  (stepFn nodes)^[k] start

/-- The sibling chain from `start` never revisits a non-sentinel index. -/
def AcyclicFrom (nodes : List CPNode) (start : Int) : Prop :=
  ∀ j k : Nat, seqF nodes start j ≠ -1 → seqF nodes start j = seqF nodes start k → j = k

/-- Predicate `Chain nodes ci l`: starting from link value `ci` and repeatedly
following `next_idx`, the visited nodes are exactly `l`, ending at the
sentinel -1. -/
inductive Chain (nodes : List CPNode) : Int → List CPNode → Prop where
  | nil : Chain nodes (-1) []
  | cons (ci : Int) (node : CPNode) (l : List CPNode) :
      ci ≠ -1 → nodes.get? (idxUsize ci) = some node →
      Chain nodes node.next_idx l → Chain nodes ci (node :: l)

/-- Total `data_size` of a list of nodes. -/
def sizeSum (l : List CPNode) : Nat := (l.map (·.data_size)).sum

/-- Both link fields of every node are in the value range of an `i32`
(automatic for every parsed node, whose links come from `read_i32_le`). -/
def i32Range (nodes : List CPNode) : Prop :=
  ∀ node ∈ nodes,
    -(2 ^ 31) ≤ node.next_idx ∧ node.next_idx < 2 ^ 31 ∧
    -(2 ^ 31) ≤ node.child_idx ∧ node.child_idx < 2 ^ 31

instance (nodes : List CPNode) : Decidable (i32Range nodes) := by
  unfold i32Range; infer_instance

/-- A link value that the sibling walk can keep following safely: the
sentinel, or an index that is both in range of the node list and small
enough that the `as usize` cast is the identity. -/
def InRange (nodes : List CPNode) (i : Int) : Prop :=
  i = -1 ∨ (0 ≤ i ∧ i < (nodes.length : Int) ∧ i < 2 ^ 31)

/-- The little-endian `u32` stored 8 bytes before the end of the buffer
(the `tree_offset` footer field). -/
def footerTreeOffset (payload : List Nat) : Nat :=
  match payload.drop (payload.length - 8) with
  | b0 :: b1 :: b2 :: b3 :: _ => b0 + b1 * 0x100 + b2 * 0x10000 + b3 * 0x1000000
  | _ => 0

/-- A minimal node record: empty name (one `0x00` count byte), both links
-1, `data_offset` 0, `data_size` 0. -/
def recEmpty : List Nat :=
  [0x00] ++ [0xFF, 0xFF, 0xFF, 0xFF] ++ [0xFF, 0xFF, 0xFF, 0xFF] ++
  [0, 0, 0, 0] ++ [0, 0, 0, 0]

/-- A buffer whose node table declares `node_count = 3` but holds only two
complete records before the 8-byte trailer. -/
def bufTruncatedTable : List Nat :=
  EDON ++ [0x03] ++ recEmpty ++ recEmpty ++ [0, 0, 0, 0] ++ ENOD

/-- A buffer whose packed `node_count` byte `0x81` decodes to -1. -/
def bufNegativeCount : List Nat :=
  EDON ++ [0x81] ++ [0, 0, 0, 0] ++ ENOD

/-- A buffer decoding to a single node whose `child_idx` is 1, out of
range for its one-element node list. -/
def bufOutOfRangeChild : List Nat :=
  EDON ++ [0x01] ++
  ([0x00] ++ [0xFF, 0xFF, 0xFF, 0xFF] ++ [0x01, 0, 0, 0] ++
   [0, 0, 0, 0] ++ [0x0A, 0, 0, 0]) ++
  [0, 0, 0, 0] ++ ENOD

/-- An 8-byte buffer of zeros: its last four bytes are not "ENOD". -/
def bufBadFooter : List Nat := [0, 0, 0, 0, 0, 0, 0, 0]

/-- The node decoded from `bufOutOfRangeChild`. -/
def nodeOutOfRange : CPNode := ⟨[], -1, 1, 0, 10⟩

/-- A parent of declared size 10 whose single child declares size 30: the
children sum exceeds the parent's size. -/
def saveInconsistent : CPSave := ⟨[], [⟨[], -1, 1, 0, 10⟩, ⟨[], -1, -1, 0, 30⟩]⟩

/-- A parent of declared size 100 with two immediate children of sizes 30
and 20 (the worked example of §8 of the spec). -/
def saveParent100 : CPSave :=
  ⟨[], [⟨[], -1, 1, 0, 100⟩, ⟨[], 2, -1, 0, 30⟩, ⟨[], -1, -1, 0, 20⟩]⟩

/-- A single node with no children (`child_idx` = sentinel). -/
def saveLeaf : CPSave := ⟨[], [⟨[], -1, -1, 0, 10⟩]⟩

/-- A one-node list whose node is its own next sibling: following
`next_idx` from index 0 never reaches the sentinel. -/
def nodesCyclic : List CPNode := [⟨[], 0, 0, 0, 0⟩]

/-- Specification-level packed-integer decoder, written from the words of
§4.1 of the spec: the low 6 bits of the first byte (`a % 64`) are the
initial magnitude, bit 0x80 of the first byte (`testBit 7`) makes the
entire result negative, bit 0x40 (`testBit 6`) signals continuation; each
of up to three continuation bytes contributes its low 7 bits (`b % 128`)
shifted by 6, 13, then 20 bits (`* 64`, `* 8192`, `* 1048576`) with bit
0x80 signalling further continuation; a fifth byte contributes all 8 bits
shifted by 27 (`* 134217728`); the result is the negated magnitude iff
the sign bit was set; decoding fails exactly when a required byte is
missing. -/
def packedIntSpec : List Nat → Except Err (Int × List Nat)
  | [] => .error .truncatedInput
  | a :: s =>
    let neg := a.testBit 7
    let mag0 : Nat := a % 64
    if a.testBit 6 then
      match s with
      | [] => .error .truncatedInput
      | b :: s =>
        let mag1 : Nat := mag0 + b % 128 * 64
        if b.testBit 7 then
          match s with
          | [] => .error .truncatedInput
          | c :: s =>
            let mag2 : Nat := mag1 + c % 128 * 8192
            if c.testBit 7 then
              match s with
              | [] => .error .truncatedInput
              | d :: s =>
                let mag3 : Nat := mag2 + d % 128 * 1048576
                if d.testBit 7 then
                  match s with
                  | [] => .error .truncatedInput
                  | e :: s =>
                    let mag4 : Nat := mag3 + e * 134217728
                    .ok (if neg then -(mag4 : Int) else (mag4 : Int), s)
                else .ok (if neg then -(mag3 : Int) else (mag3 : Int), s)
            else .ok (if neg then -(mag2 : Int) else (mag2 : Int), s)
        else .ok (if neg then -(mag1 : Int) else (mag1 : Int), s)
    else .ok (if neg then -(mag0 : Int) else (mag0 : Int), s)

/-- Little-endian pairing of `2 * n` bytes into `n` 16-bit units. -/
def leUnits : Nat → List Nat → List Nat
  | 0, _ => []
  | n + 1, b0 :: b1 :: rest => (b0 + b1 * 0x100) :: leUnits n rest
  | _ + 1, _ => []

/-- Specification-level prefixed-string decoder, written from the words of
§4.2 of the spec exactly as stated there: decode a packed integer `count`;
if `count < 0` the payload is `-count` raw bytes interpreted as UTF-8,
otherwise `count` little-endian 16-bit code units interpreted as UTF-16;
fail with `truncatedInput` when fewer bytes/units remain than required and
with `invalidText` when the payload is not valid in the selected encoding.
The count is used unbounded, with no `usize` truncation. -/
def pstrSpecUnbounded (s : List Nat) : Except Err (List Nat × List Nat) :=
  match read_packed_int s with
  | .error e => .error e
  | .ok (count, s) =>
    if count < 0 then
      let n := (-count).toNat
      if s.length < n then .error .truncatedInput
      else
        match utf8Decode (s.take n) with
        | some str => .ok (str, s.drop n)
        | none => .error .invalidText
    else
      let n := count.toNat
      if s.length < 2 * n then .error .truncatedInput
      else
        match utf16Decode (leUnits n s) with
        | some str => .ok (str, s.drop (2 * n))
        | none => .error .invalidText

/-- Amended specification-level prefixed-string decoder: as
`pstrSpecUnbounded`, except that the payload length is the wasm32
`as usize` truncation of the count — `(-count) mod 2 ^ 32` raw bytes in
the negative branch and `count mod 2 ^ 32` 16-bit units in the
non-negative branch — matching what the program actually reads. -/
def pstrSpec (s : List Nat) : Except Err (List Nat × List Nat) :=
  match read_packed_int s with
  | .error e => .error e
  | .ok (count, s) =>
    if count < 0 then
      let n := usizeCast (-count)
      if s.length < n then .error .truncatedInput
      else
        match utf8Decode (s.take n) with
        | some str => .ok (str, s.drop n)
        | none => .error .invalidText
    else
      let n := usizeCast count
      if s.length < 2 * n then .error .truncatedInput
      else
        match utf16Decode (leUnits n s) with
        | some str => .ok (str, s.drop (2 * n))
        | none => .error .invalidText

/-- Modelled from the spec: the repository contains no packed-integer
encoder (decode-only, §1), but §4.1 describes the encoding as the semantic
inverse of the decoder — split the magnitude into 6/7/7/7/8-bit groups,
set the continuation bit (0x40 on the first byte, 0x80 on later ones) on
every byte that is followed by another, and set bit 0x80 of the first byte
iff the value is negative. -/
def encode_packed_int (v : Int) : List Nat :=
  let neg : Bool := decide (v < 0)
  let m := v.natAbs
  let sbit := if neg then 0x80 else 0
  if m < 64 then [m + sbit]
  else
    let b0 := m % 64 + 0x40 + sbit
    let m1 := m / 64
    if m1 < 128 then [b0, m1]
    else
      let b1 := m1 % 128 + 0x80
      let m2 := m1 / 128
      if m2 < 128 then [b0, b1, m2]
      else
        let b2 := m2 % 128 + 0x80
        let m3 := m2 / 128
        if m3 < 128 then [b0, b1, b2, m3]
        else [b0, b1, b2, m3 % 128 + 0x80, m3 / 128]

/-! Helper lemmas. -/

theorem walkSum_sentinel (nodes : List CPNode) (f : Nat) (acc : Nat) :
    walkSum nodes f (-1) acc = .done acc := by
  cases f <;> simp [walkSum]

theorem stepFn_sentinel (nodes : List CPNode) : stepFn nodes (-1) = -1 := by
  simp [stepFn]

theorem seqF_sentinel (nodes : List CPNode) (k : Nat) : seqF nodes (-1) k = -1 := by
  induction k with
  | zero => rfl
  | succ k ih =>
    unfold seqF at ih ⊢
    rw [Function.iterate_succ_apply, stepFn_sentinel]
    exact ih

theorem acyclicFrom_sentinel (nodes : List CPNode) : AcyclicFrom nodes (-1) := by
  intro j k hj
  exact absurd (seqF_sentinel nodes j) hj

/-- C1: the node-table parser performs no range validation of `next_idx` /
`child_idx`, and the byte-accounting loop indexes the node list with an
unchecked `child_idx as usize`: on a decoded save whose single node has
`child_idx = 1` (outside {-1} ∪ [0, 0]), the decode succeeds and the
accounting walk performs an out-of-bounds access (a panic) instead of
reporting a malformed link. -/
theorem c1_unchecked_index_panics :
    read_save_structure bufOutOfRangeChild = some ⟨bufOutOfRangeChild, [nodeOutOfRange]⟩ ∧
    (∀ fuel : Nat, walkSum [nodeOutOfRange] (fuel + 1) nodeOutOfRange.child_idx 0 = .oob) ∧
    (∀ fuel : Nat, accountSave ⟨bufOutOfRangeChild, [nodeOutOfRange]⟩ fuel = none) := by
  refine ⟨by decide, fun fuel => rfl, fun fuel => ?_⟩
  cases fuel <;> rfl

/-- C2: on a parent of declared size 10 whose immediate-children sizes sum
to 30, the accounting pass does not surface the inconsistency: it computes
`own_bytes` by wrapping `u32` subtraction, yielding 2^32 - 20. -/
theorem c2_inconsistent_sum_wraps :
    accountSave saveInconsistent 2 =
      some [([], 4294967276, 10), ([], 30, 30)] := by
  decide

/-- C3: a buffer whose packed `node_count` decodes to the negative value
-1 is not rejected: `for _ in 0..node_count` iterates zero times and the
decode succeeds with an empty node list. -/
theorem c3_negative_count_accepted :
    read_save_structure bufNegativeCount = some ⟨bufNegativeCount, []⟩ := by
  decide

theorem bindE_ok {A B : Type} (a : A) (f : A → Except Err B) :
    (bind (Except.ok a) f : Except Err B) = f a := rfl

theorem bindE_error {A B : Type} (e : Err) (f : A → Except Err B) :
    (bind (Except.error e) f : Except Err B) = Except.error e := rfl

theorem read_bytes_eq (n : Nat) (s : List Nat) :
    read_bytes n s =
      if s.length < n then .error .truncatedInput else .ok (s.take n, s.drop n) := by
  induction n generalizing s with
  | zero => simp [read_bytes]
  | succ n ih =>
    cases s with
    | nil => simp [read_bytes, read_u8, bindE_error]
    | cons b rest =>
      by_cases hc : rest.length < n
      · simp [read_bytes, read_u8, bindE_ok, ih, hc, bindE_error]
      · simp [read_bytes, read_u8, bindE_ok, ih, hc]

theorem read_u16s_eq (n : Nat) (s : List Nat) :
    read_u16s n s =
      if s.length < 2 * n then .error .truncatedInput
      else .ok (leUnits n s, s.drop (2 * n)) := by
  induction n generalizing s with
  | zero => simp [read_u16s, leUnits]
  | succ n ih =>
    cases s with
    | nil =>
      simp only [read_u16s, read_u16_le, read_u8, bindE_error, List.length_nil]
      rw [if_pos (by omega)]
    | cons b0 rest =>
      cases rest with
      | nil =>
        simp only [read_u16s, read_u16_le, read_u8, bindE_ok, bindE_error,
          List.length_cons, List.length_nil]
        rw [if_pos (by omega)]
      | cons b1 rest =>
        have h2 : 2 * (n + 1) = 2 * n + 1 + 1 := by omega
        by_cases hc : rest.length < 2 * n
        · simp only [read_u16s, read_u16_le, read_u8, bindE_ok, bindE_error, ih,
            if_pos hc, List.length_cons]
          rw [if_pos (by omega)]
        · simp only [read_u16s, read_u16_le, read_u8, bindE_ok, ih, if_neg hc, leUnits,
            List.length_cons]
          rw [if_neg (by omega), h2, List.drop_succ_cons, List.drop_succ_cons]

/-- C5 counterexample: the five-byte packed count 0xC0 0x80 0x80 0x80 0x20
decodes to -2 ^ 32, whose claimed reading of `-count` = 2 ^ 32 raw bytes
from an empty remainder would fail with `truncatedInput`
(`pstrSpecUnbounded`, the claim as written); the program instead truncates
the count with the wasm32 `as usize` cast, reads 2 ^ 32 mod 2 ^ 32 = 0
bytes, and succeeds with the empty string. -/
theorem c5_count_wrap_counterexample :
    read_pstr [0xC0, 0x80, 0x80, 0x80, 0x20] = .ok ([], []) ∧
    pstrSpecUnbounded [0xC0, 0x80, 0x80, 0x80, 0x20] = .error .truncatedInput :=
  ⟨rfl, rfl⟩

/-- C5 (amended): the prefixed-string decoder first decodes a packed
integer `count`; for `count < 0` it reads `(-count) mod 2 ^ 32` raw bytes
(the wasm32 `as usize` truncation of the `i64` count) and validates them
as UTF-8, for `count ≥ 0` it reads `count mod 2 ^ 32` little-endian
16-bit code units and validates them as UTF-16; it fails with
`truncatedInput` when fewer bytes/units than that remain and with
`invalidText` when the payload is invalid in the selected encoding. -/
theorem c5_pstr_matches_spec (s : List Nat) : read_pstr s = pstrSpec s := by
  unfold read_pstr pstrSpec
  cases hp : read_packed_int s with
  | error e => simp [bindE_error, hp]
  | ok res =>
    obtain ⟨count, s1⟩ := res
    simp only [bindE_ok, hp]
    by_cases hneg : count < 0
    · simp only [if_pos hneg, read_bytes_eq]
      by_cases hlen : s1.length < usizeCast (-count)
      · simp [hlen, bindE_error]
      · simp only [if_neg hlen, bindE_ok]
    · simp only [if_neg hneg, read_u16s_eq]
      by_cases hlen : s1.length < 2 * usizeCast count
      · simp [hlen, bindE_error]
      · simp only [if_neg hlen, bindE_ok]

/-- C6: if the four bytes after the footer `tree_offset` field are not the
literal "ENOD", or the four bytes at absolute position `tree_offset` are
not the literal "EDON", `read_save_structure` fails (returns `none`)
without reading any node record and without any fallback offset search. -/
theorem c6_bad_signature_fails (payload : List Nat)
    (h8 : 8 ≤ payload.length)
    (hbad : payload.drop (payload.length - 4) ≠ ENOD ∨
      (payload.drop (footerTreeOffset payload)).take 4 ≠ EDON) :
    read_save_structure payload = none := by
  have hlen : (payload.drop (payload.length - 8)).length = 8 := by
    rw [List.length_drop]; omega
  rcases hx : payload.drop (payload.length - 8) with
    _ | ⟨b0, _ | ⟨b1, _ | ⟨b2, _ | ⟨b3, _ | ⟨b4, _ | ⟨b5, _ | ⟨b6, _ | ⟨b7, tail⟩⟩⟩⟩⟩⟩⟩⟩ <;>
    rw [hx] at hlen <;> simp only [List.length_cons, List.length_nil] at hlen <;>
    try omega
  have htail : tail = [] := by
    have : tail.length = 0 := by omega
    exact List.eq_nil_of_length_eq_zero this
  subst htail
  have hdrop4 : payload.drop (payload.length - 4) = [b4, b5, b6, b7] := by
    have hh : (payload.drop (payload.length - 8)).drop 4 = payload.drop (payload.length - 4) := by
      rw [List.drop_drop]; congr 1; omega
    rw [← hh, hx]
    rfl
  have hfto : footerTreeOffset payload =
      b0 + b1 * 0x100 + b2 * 0x10000 + b3 * 0x1000000 := by
    unfold footerTreeOffset
    rw [hx]
  unfold read_save_structure
  rw [if_neg (by omega), hx]
  have hu : read_u32_le [b0, b1, b2, b3, b4, b5, b6, b7] =
      .ok (b0 + b1 * 0x100 + b2 * 0x10000 + b3 * 0x1000000, [b4, b5, b6, b7]) := rfl
  rw [hu]
  simp only [Except.toOption, Option.bind]
  have hrb : read_bytes 4 [b4, b5, b6, b7] = .ok ([b4, b5, b6, b7], []) := rfl
  rw [hrb]
  simp only [Except.toOption, Option.bind]
  rcases hbad with hb | hb
  · rw [hdrop4] at hb
    rw [if_pos hb]
  · by_cases hsig : [b4, b5, b6, b7] = ENOD
    · rw [if_neg (not_not_intro hsig), ← hfto, read_bytes_eq]
      by_cases hl4 : (payload.drop (footerTreeOffset payload)).length < 4
      · rw [if_pos hl4]
      · rw [if_neg hl4]
        simp only [Except.toOption, Option.bind]
        rw [if_pos hb]
    · rw [if_pos hsig]

/-- C6 witness: the all-zero 8-byte buffer has a bad "ENOD" marker and is
rejected. -/
theorem c6_witness : read_save_structure bufBadFooter = none :=
  c6_bad_signature_fails bufBadFooter (by decide) (Or.inl (by decide))

/-- C8: the node-table loop is all-or-nothing — whenever `parseNodes`
succeeds it has read exactly the declared number of complete records, so a
partial node table is never produced — and a concrete buffer declaring
`node_count = 3` with only two complete records aborts the whole decode
with a failure. -/
theorem c8_no_partial_table :
    (∀ (n : Nat) (s rest : List Nat) (nodes : List CPNode),
      parseNodes n s = .ok (nodes, rest) → nodes.length = n) ∧
    read_save_structure bufTruncatedTable = none := by
  constructor
  · intro n
    induction n with
    | zero =>
      intro s rest nodes h
      simp [parseNodes] at h
      simp [h.1.symm]
    | succ n ih =>
      intro s rest nodes h
      cases hp : parseNode s with
      | error e => rw [parseNodes, hp, bindE_error] at h; exact absurd h (by simp)
      | ok res =>
        obtain ⟨node, s1⟩ := res
        rw [parseNodes, hp, bindE_ok] at h
        dsimp only at h
        cases hq : parseNodes n s1 with
        | error e => rw [hq, bindE_error] at h; exact absurd h (by simp)
        | ok res2 =>
          obtain ⟨l, s2⟩ := res2
          rw [hq, bindE_ok] at h
          have hinj : nodes = node :: l := by
            have := congrArg (fun x => match x with | Except.ok (p : List CPNode × List Nat) => p.1 | _ => []) h
            simpa using this.symm
          rw [hinj, List.length_cons, ih s1 s2 l hq]
  · decide

/-- C8 witness: one complete record parses to exactly one node. -/
theorem c8_witness :
    ∃ nodes : List CPNode, nodes.length = 1 ∧ parseNodes 1 recEmpty = .ok (nodes, []) := by
  refine ⟨[⟨[], -1, -1, 0, 0⟩], ?_, by rfl⟩
  exact c8_no_partial_table.1 1 recEmpty [] [⟨[], -1, -1, 0, 0⟩] (by rfl)

theorem land63 (a : Nat) : a &&& 63 = a % 64 := by
  have h := Nat.and_pow_two_sub_one_eq_mod a 6
  norm_num at h
  exact h

theorem land127 (a : Nat) : a &&& 127 = a % 128 := by
  have h := Nat.and_pow_two_sub_one_eq_mod a 7
  norm_num at h
  exact h

theorem testBit6_iff (a : Nat) : a &&& 64 ≠ 0 ↔ a.testBit 6 = true := by
  have h := Nat.and_two_pow a 6
  norm_num at h
  rw [h]
  cases hb : a.testBit 6 <;> simp

theorem testBit7_eq (a : Nat) (h : a < 256) : a.testBit 7 = decide (0x80 ≤ a) := by
  rw [Nat.testBit_to_div_mod]
  have : (a / 2 ^ 7 % 2 = 1) ↔ (0x80 ≤ a) := by
    constructor <;> intro <;> omega
  rw [decide_eq_decide.mpr this]

theorem lor_shift (a b n : Nat) (h : a < 2 ^ n) : a ||| b <<< n = a + b <<< n := by
  apply Nat.eq_of_testBit_eq
  intro i
  have hrw : a + b <<< n = 2 ^ n * b + a := by rw [Nat.shiftLeft_eq]; ring
  rw [hrw, Nat.testBit_mul_pow_two_add b h i, Nat.testBit_lor, Nat.testBit_shiftLeft]
  by_cases hin : i < n
  · rw [if_pos hin]
    have hge : ¬ (i ≥ n) := by omega
    simp [hge]
  · rw [if_neg hin]
    have ha : a.testBit i = false :=
      Nat.testBit_lt_two_pow (lt_of_lt_of_le h (Nat.pow_le_pow_right (by omega) (by omega)))
    simp [ha, ge_iff_le, Nat.le_of_not_lt hin]

theorem lor_shift6 (a b : Nat) (h : a < 64) : a ||| b <<< 6 = a + b * 64 := by
  rw [lor_shift a b 6 (by norm_num; omega), Nat.shiftLeft_eq]

theorem lor_shift13 (a b : Nat) (h : a < 8192) : a ||| b <<< 13 = a + b * 8192 := by
  rw [lor_shift a b 13 (by norm_num; omega), Nat.shiftLeft_eq]

theorem lor_shift20 (a b : Nat) (h : a < 1048576) : a ||| b <<< 20 = a + b * 1048576 := by
  rw [lor_shift a b 20 (by norm_num; omega), Nat.shiftLeft_eq]

theorem lor_shift27 (a b : Nat) (h : a < 134217728) : a ||| b <<< 27 = a + b * 134217728 := by
  rw [lor_shift a b 27 (by norm_num; omega), Nat.shiftLeft_eq]

/-- C4: for every byte stream, `read_packed_int` behaves exactly as §4.1
describes: low 6 bits of the first byte as initial magnitude, bit 0x80 of
the first byte as the sign of the whole result, bit 0x40 as continuation;
up to three continuation bytes contribute their low 7 bits shifted by 6,
13, then 20 bits with bit 0x80 as further continuation; a fifth byte
contributes all 8 bits shifted by 27; the result is the negated magnitude
iff the sign bit was set, and decoding fails exactly when a required byte
is missing. -/
theorem c4_packed_int_matches_spec (s : List Nat) (hb : ∀ b ∈ s, b < 256) :
    read_packed_int s = packedIntSpec s := by
  cases s with
  | nil => rfl
  | cons a s =>
    have ha : a < 256 := hb a (List.mem_cons_self a s)
    simp only [read_packed_int, packedIntSpec, read_u8, bindE_ok, pfin]
    rw [testBit7_eq a ha, land63 a]
    by_cases h6 : a.testBit 6 = true
    · rw [if_pos ((testBit6_iff a).mpr h6), if_pos h6]
      cases s with
      | nil => rfl
      | cons b s =>
        have hb1 : b < 256 := hb b (by simp)
        simp only [read_u8, bindE_ok]
        rw [land127 b, lor_shift6 (a % 64) (b % 128) (by omega)]
        by_cases h7 : b.testBit 7 = true
        · have h7p : 0x80 ≤ b := of_decide_eq_true ((testBit7_eq b hb1).symm.trans h7)
          rw [if_pos h7p, if_pos h7]
          cases s with
          | nil => rfl
          | cons c s =>
            have hc1 : c < 256 := hb c (by simp)
            simp only [read_u8, bindE_ok]
            rw [land127 c, lor_shift13 _ (c % 128) (by omega)]
            by_cases h8 : c.testBit 7 = true
            · have h8p : 0x80 ≤ c := of_decide_eq_true ((testBit7_eq c hc1).symm.trans h8)
              rw [if_pos h8p, if_pos h8]
              cases s with
              | nil => rfl
              | cons d s =>
                have hd1 : d < 256 := hb d (by simp)
                simp only [read_u8, bindE_ok]
                rw [land127 d, lor_shift20 _ (d % 128) (by omega)]
                by_cases h9 : d.testBit 7 = true
                · have h9p : 0x80 ≤ d := of_decide_eq_true ((testBit7_eq d hd1).symm.trans h9)
                  rw [if_pos h9p, if_pos h9]
                  cases s with
                  | nil => rfl
                  | cons e s =>
                    simp only [read_u8, bindE_ok]
                    rw [lor_shift27 _ e (by omega)]
                · have h9n : ¬ (0x80 ≤ d) :=
                    of_decide_eq_false ((testBit7_eq d hd1).symm.trans (Bool.not_eq_true _ ▸ h9 : d.testBit 7 = false))
                  rw [if_neg h9n, if_neg h9]
            · have h8n : ¬ (0x80 ≤ c) :=
                of_decide_eq_false ((testBit7_eq c hc1).symm.trans (Bool.not_eq_true _ ▸ h8 : c.testBit 7 = false))
              rw [if_neg h8n, if_neg h8]
        · have h7n : ¬ (0x80 ≤ b) :=
            of_decide_eq_false ((testBit7_eq b hb1).symm.trans (Bool.not_eq_true _ ▸ h7 : b.testBit 7 = false))
          rw [if_neg h7n, if_neg h7]
    · rw [if_neg (fun hcc => h6 ((testBit6_iff a).mp hcc)), if_neg h6]

/-- C4 witness: a concrete three-byte stream decodes identically under the
source decoder and the spec-level decoder. -/
theorem c4_witness : read_packed_int [0xC1, 0x81, 0x01] = packedIntSpec [0xC1, 0x81, 0x01] :=
  c4_packed_int_matches_spec [0xC1, 0x81, 0x01] (by decide)

theorem land64_ne (a : Nat) (h : a / 64 % 2 = 1) : a &&& 64 ≠ 0 := by
  have hh := Nat.and_two_pow a 6
  rw [Nat.testBit_to_div_mod] at hh
  norm_num at hh
  rw [hh]
  simp [h]

theorem land64_zero (a : Nat) (h : a / 64 % 2 = 0) : a &&& 64 = 0 := by
  have hh := Nat.and_two_pow a 6
  rw [Nat.testBit_to_div_mod] at hh
  norm_num at hh
  rw [hh]
  simp [h]

theorem pfin_eq (p : Prop) [Decidable p] (sb : Bool) (x y : Nat) (rest : List Nat)
    (h1 : decide p = sb) (h2 : x = y) : pfin (decide p) x rest = pfin sb y rest := by
  rw [h1, h2]

theorem decode_mag (v : Int) (hm : v.natAbs < 34359738368) (rest : List Nat) :
    read_packed_int (encode_packed_int v ++ rest) = pfin (decide (v < 0)) v.natAbs rest := by
  simp only [encode_packed_int]
  by_cases hv0 : v < 0
  · rw [decide_eq_true hv0]
    rw [show (if (true = true) then (0x80 : Nat) else 0) = 0x80 from rfl]
    by_cases h1 : v.natAbs < 64
    · rw [if_pos h1]
      simp only [List.cons_append, List.nil_append]
      simp only [read_packed_int, read_u8, bindE_ok]
      rw [land63]
      rw [if_neg (not_not_intro (land64_zero _ (by omega)))]
      exact pfin_eq _ _ _ _ rest (by simp only [decide_eq_true_eq]; omega) (by omega)
    · rw [if_neg h1]
      by_cases h2 : v.natAbs / 64 < 128
      · rw [if_pos h2]
        simp only [List.cons_append, List.nil_append]
        simp only [read_packed_int, read_u8, bindE_ok]
        rw [land63]
        rw [if_pos (land64_ne _ (by omega))]
        rw [land127]
        rw [lor_shift6 _ _ (by omega)]
        rw [if_neg (show ¬ ((0x80 : Nat) ≤ v.natAbs / 64) from by omega)]
        exact pfin_eq _ _ _ _ rest (by simp only [decide_eq_true_eq]; omega) (by omega)
      · rw [if_neg h2]
        by_cases h3 : v.natAbs / 64 / 128 < 128
        · rw [if_pos h3]
          simp only [List.cons_append, List.nil_append]
          simp only [read_packed_int, read_u8, bindE_ok]
          rw [land63]
          rw [if_pos (land64_ne _ (by omega))]
          rw [land127]
          rw [lor_shift6 _ _ (by omega)]
          rw [if_pos (show (0x80 : Nat) ≤ v.natAbs / 64 % 128 + 0x80 from by omega)]
          rw [land127]
          rw [lor_shift13 _ _ (by omega)]
          rw [if_neg (show ¬ ((0x80 : Nat) ≤ v.natAbs / 64 / 128) from by omega)]
          exact pfin_eq _ _ _ _ rest (by simp only [decide_eq_true_eq]; omega) (by omega)
        · rw [if_neg h3]
          by_cases h4 : v.natAbs / 64 / 128 / 128 < 128
          · rw [if_pos h4]
            simp only [List.cons_append, List.nil_append]
            simp only [read_packed_int, read_u8, bindE_ok]
            rw [land63]
            rw [if_pos (land64_ne _ (by omega))]
            rw [land127]
            rw [lor_shift6 _ _ (by omega)]
            rw [if_pos (show (0x80 : Nat) ≤ v.natAbs / 64 % 128 + 0x80 from by omega)]
            rw [land127]
            rw [lor_shift13 _ _ (by omega)]
            rw [if_pos (show (0x80 : Nat) ≤ v.natAbs / 64 / 128 % 128 + 0x80 from by omega)]
            rw [land127]
            rw [lor_shift20 _ _ (by omega)]
            rw [if_neg (show ¬ ((0x80 : Nat) ≤ v.natAbs / 64 / 128 / 128) from by omega)]
            exact pfin_eq _ _ _ _ rest (by simp only [decide_eq_true_eq]; omega) (by omega)
          · rw [if_neg h4]
            simp only [List.cons_append, List.nil_append]
            simp only [read_packed_int, read_u8, bindE_ok]
            rw [land63]
            rw [if_pos (land64_ne _ (by omega))]
            rw [land127]
            rw [lor_shift6 _ _ (by omega)]
            rw [if_pos (show (0x80 : Nat) ≤ v.natAbs / 64 % 128 + 0x80 from by omega)]
            rw [land127]
            rw [lor_shift13 _ _ (by omega)]
            rw [if_pos (show (0x80 : Nat) ≤ v.natAbs / 64 / 128 % 128 + 0x80 from by omega)]
            rw [land127]
            rw [lor_shift20 _ _ (by omega)]
            rw [if_pos (show (0x80 : Nat) ≤ v.natAbs / 64 / 128 / 128 % 128 + 0x80 from by omega)]
            rw [lor_shift27 _ _ (by omega)]
            exact pfin_eq _ _ _ _ rest (by simp only [decide_eq_true_eq]; omega) (by omega)
  · rw [decide_eq_false hv0]
    rw [show (if (false = true) then (0x80 : Nat) else 0) = 0 from rfl]
    by_cases h1 : v.natAbs < 64
    · rw [if_pos h1]
      simp only [List.cons_append, List.nil_append]
      simp only [read_packed_int, read_u8, bindE_ok]
      rw [land63]
      rw [if_neg (not_not_intro (land64_zero _ (by omega)))]
      exact pfin_eq _ _ _ _ rest (by simp only [decide_eq_false_iff_not]; omega) (by omega)
    · rw [if_neg h1]
      by_cases h2 : v.natAbs / 64 < 128
      · rw [if_pos h2]
        simp only [List.cons_append, List.nil_append]
        simp only [read_packed_int, read_u8, bindE_ok]
        rw [land63]
        rw [if_pos (land64_ne _ (by omega))]
        rw [land127]
        rw [lor_shift6 _ _ (by omega)]
        rw [if_neg (show ¬ ((0x80 : Nat) ≤ v.natAbs / 64) from by omega)]
        exact pfin_eq _ _ _ _ rest (by simp only [decide_eq_false_iff_not]; omega) (by omega)
      · rw [if_neg h2]
        by_cases h3 : v.natAbs / 64 / 128 < 128
        · rw [if_pos h3]
          simp only [List.cons_append, List.nil_append]
          simp only [read_packed_int, read_u8, bindE_ok]
          rw [land63]
          rw [if_pos (land64_ne _ (by omega))]
          rw [land127]
          rw [lor_shift6 _ _ (by omega)]
          rw [if_pos (show (0x80 : Nat) ≤ v.natAbs / 64 % 128 + 0x80 from by omega)]
          rw [land127]
          rw [lor_shift13 _ _ (by omega)]
          rw [if_neg (show ¬ ((0x80 : Nat) ≤ v.natAbs / 64 / 128) from by omega)]
          exact pfin_eq _ _ _ _ rest (by simp only [decide_eq_false_iff_not]; omega) (by omega)
        · rw [if_neg h3]
          by_cases h4 : v.natAbs / 64 / 128 / 128 < 128
          · rw [if_pos h4]
            simp only [List.cons_append, List.nil_append]
            simp only [read_packed_int, read_u8, bindE_ok]
            rw [land63]
            rw [if_pos (land64_ne _ (by omega))]
            rw [land127]
            rw [lor_shift6 _ _ (by omega)]
            rw [if_pos (show (0x80 : Nat) ≤ v.natAbs / 64 % 128 + 0x80 from by omega)]
            rw [land127]
            rw [lor_shift13 _ _ (by omega)]
            rw [if_pos (show (0x80 : Nat) ≤ v.natAbs / 64 / 128 % 128 + 0x80 from by omega)]
            rw [land127]
            rw [lor_shift20 _ _ (by omega)]
            rw [if_neg (show ¬ ((0x80 : Nat) ≤ v.natAbs / 64 / 128 / 128) from by omega)]
            exact pfin_eq _ _ _ _ rest (by simp only [decide_eq_false_iff_not]; omega) (by omega)
          · rw [if_neg h4]
            simp only [List.cons_append, List.nil_append]
            simp only [read_packed_int, read_u8, bindE_ok]
            rw [land63]
            rw [if_pos (land64_ne _ (by omega))]
            rw [land127]
            rw [lor_shift6 _ _ (by omega)]
            rw [if_pos (show (0x80 : Nat) ≤ v.natAbs / 64 % 128 + 0x80 from by omega)]
            rw [land127]
            rw [lor_shift13 _ _ (by omega)]
            rw [if_pos (show (0x80 : Nat) ≤ v.natAbs / 64 / 128 % 128 + 0x80 from by omega)]
            rw [land127]
            rw [lor_shift20 _ _ (by omega)]
            rw [if_pos (show (0x80 : Nat) ≤ v.natAbs / 64 / 128 / 128 % 128 + 0x80 from by omega)]
            rw [lor_shift27 _ _ (by omega)]
            exact pfin_eq _ _ _ _ rest (by simp only [decide_eq_false_iff_not]; omega) (by omega)

/-- C9: packed-integer round trip — for every representable value (both
signs, all continuation widths, magnitude below 2 ^ 35), decoding the
spec-modelled encoding returns exactly the value (and consumes exactly the
encoded bytes). -/
theorem c9_packed_int_round_trip (v : Int) (hv : v.natAbs < 2 ^ 35) (rest : List Nat) :
    read_packed_int (encode_packed_int v ++ rest) = .ok (v, rest) := by
  have hm : v.natAbs < 34359738368 := by
    have h35 : (2 : Nat) ^ 35 = 34359738368 := by norm_num
    omega
  rw [decode_mag v hm rest]
  unfold pfin
  by_cases hv0 : v < 0
  · rw [decide_eq_true hv0, if_pos (show (true : Bool) = true from rfl)]
    have hval : -((v.natAbs : Int)) = v := by omega
    rw [hval]
  · rw [decide_eq_false hv0, if_neg (show ¬ ((false : Bool) = true) from by simp)]
    have hval : ((v.natAbs : Int)) = v := by omega
    rw [hval]

/-- C9 witness: a five-byte negative value round-trips. -/
theorem c9_witness :
    read_packed_int (encode_packed_int (-34359738367) ++ []) = .ok (-34359738367, []) :=
  c9_packed_int_round_trip (-34359738367) (by norm_num) []

theorem idxUsize_eq (i : Int) (h0 : 0 ≤ i) (h1 : i < 2 ^ 31) : idxUsize i = i.toNat := by
  have h1n : i < 2147483648 := by norm_num at h1; exact h1
  unfold idxUsize U32
  have hc : ((2 ^ 32 : Nat) : Int) = 4294967296 := by norm_num
  rw [hc, Int.emod_eq_of_lt h0 (by omega)]

theorem seqF_zero (nodes : List CPNode) (start : Int) : seqF nodes start 0 = start := rfl

theorem seqF_succ (nodes : List CPNode) (start : Int) (k : Nat) :
    seqF nodes start (k + 1) = seqF nodes (stepFn nodes start) k := by
  unfold seqF
  rw [Function.iterate_succ_apply]

theorem seqF_succ_last (nodes : List CPNode) (start : Int) (k : Nat) :
    seqF nodes start (k + 1) = stepFn nodes (seqF nodes start k) := by
  unfold seqF
  rw [Function.iterate_succ_apply']

theorem step_inRange (nodes : List CPNode) (hv : validLinks nodes) (hr : i32Range nodes)
    (i : Int) (hi : InRange nodes i) : InRange nodes (stepFn nodes i) := by
  unfold stepFn
  by_cases hs : i = -1
  · rw [if_pos hs]
    exact Or.inl rfl
  · rw [if_neg hs]
    cases hget : nodes.get? (idxUsize i) with
    | none => exact Or.inl rfl
    | some node =>
      have hmem : node ∈ nodes := List.get?_mem hget
      rcases (hv node hmem).1 with h | ⟨ha, hb⟩
      · exact Or.inl h
      · exact Or.inr ⟨ha, hb, (hr node hmem).2.1⟩

theorem seqF_inRange (nodes : List CPNode) (hv : validLinks nodes) (hr : i32Range nodes)
    (start : Int) (hs : InRange nodes start) (k : Nat) : InRange nodes (seqF nodes start k) := by
  induction k with
  | zero => exact hs
  | succ k ih =>
    rw [seqF_succ_last]
    exact step_inRange nodes hv hr _ ih

theorem reaches_sentinel (nodes : List CPNode) (hv : validLinks nodes) (hr : i32Range nodes)
    (start : Int) (hs : InRange nodes start) (hacyc : AcyclicFrom nodes start) :
    ∃ m, m ≤ nodes.length ∧ seqF nodes start m = -1 := by
  by_contra hcon
  push_neg at hcon
  have hmap : ∀ k : Fin (nodes.length + 1), (seqF nodes start k).toNat < nodes.length := by
    intro k
    have hklt := k.isLt
    have hin := seqF_inRange nodes hv hr start hs k
    have hne := hcon k (by omega)
    rcases hin with h | ⟨h0, hNN, h31⟩
    · exact absurd h hne
    · omega
  have hinj : Function.Injective
      (fun k : Fin (nodes.length + 1) => (⟨(seqF nodes start k).toNat, hmap k⟩ : Fin nodes.length)) := by
    intro k1 k2 h
    have hk1 := k1.isLt
    have hk2 := k2.isLt
    simp only [Fin.mk.injEq] at h
    have hne1 := hcon k1 (by omega)
    have hne2 := hcon k2 (by omega)
    have hin1 := seqF_inRange nodes hv hr start hs k1
    have hin2 := seqF_inRange nodes hv hr start hs k2
    have heq : seqF nodes start k1 = seqF nodes start k2 := by
      rcases hin1 with hh | ⟨h01, hN1, h311⟩
      · exact absurd hh hne1
      · rcases hin2 with hh2 | ⟨h02, hN2, h312⟩
        · exact absurd hh2 hne2
        · omega
    exact Fin.ext (hacyc k1 k2 hne1 heq)
  have hcard := Fintype.card_le_of_injective _ hinj
  simp only [Fintype.card_fin] at hcard
  omega

theorem chain_of_seq (nodes : List CPNode) (hv : validLinks nodes) (hr : i32Range nodes) :
    ∀ (m : Nat) (start : Int), InRange nodes start → seqF nodes start m = -1 →
    ∃ l, Chain nodes start l ∧ l.length ≤ m := by
  intro m
  induction m with
  | zero =>
    intro start hs h0
    rw [seqF_zero] at h0
    subst h0
    exact ⟨[], Chain.nil, by simp⟩
  | succ m ih =>
    intro start hs hm1
    by_cases hsent : start = -1
    · subst hsent
      exact ⟨[], Chain.nil, by simp⟩
    · rcases hs with h | ⟨h0, hN, h31⟩
      · exact absurd h hsent
      have hidx : idxUsize start = start.toNat := idxUsize_eq start h0 h31
      have hlt : start.toNat < nodes.length := by omega
      have hget : nodes.get? (idxUsize start) = some (nodes.get ⟨start.toNat, hlt⟩) := by
        rw [hidx]
        exact List.get?_eq_get hlt
      have hmem : nodes.get ⟨start.toNat, hlt⟩ ∈ nodes := List.get?_mem hget
      have hstep : stepFn nodes start = (nodes.get ⟨start.toNat, hlt⟩).next_idx := by
        unfold stepFn
        rw [if_neg hsent, hget]
      have hnextIn : InRange nodes (nodes.get ⟨start.toNat, hlt⟩).next_idx := by
        rcases (hv _ hmem).1 with h | ⟨ha, hb⟩
        · exact Or.inl h
        · exact Or.inr ⟨ha, hb, (hr _ hmem).2.1⟩
      rw [seqF_succ, hstep] at hm1
      obtain ⟨l, hchain, hlen⟩ := ih _ hnextIn hm1
      refine ⟨nodes.get ⟨start.toNat, hlt⟩ :: l,
        Chain.cons start _ l hsent hget hchain, by simp; omega⟩

theorem walk_of_chain (nodes : List CPNode) (l : List CPNode) (ci : Int)
    (hchain : Chain nodes ci l) :
    ∀ (acc f : Nat), l.length ≤ f → acc < U32 →
    walkSum nodes f ci acc = .done ((acc + sizeSum l) % U32) := by
  induction hchain with
  | nil =>
    intro acc f hlen hacc
    rw [walkSum_sentinel]
    have hz : sizeSum [] = 0 := by simp [sizeSum]
    rw [hz, Nat.add_zero, Nat.mod_eq_of_lt hacc]
  | cons ci node l hne hget hch ih =>
    intro acc f hlen hacc
    cases f with
    | zero => simp at hlen
    | succ f =>
      simp only [walkSum, if_neg hne, hget]
      have hrec := ih ((acc + node.data_size) % U32) f
        (by simp at hlen; omega) (Nat.mod_lt _ (by norm_num [U32]))
      rw [hrec, Nat.mod_add_mod]
      congr 1
      have hcons : sizeSum (node :: l) = node.data_size + sizeSum l := by simp [sizeSum]
      rw [hcons, Nat.add_assoc]

/-- C10: for a node list whose links are all sentinel-or-valid and whose
sibling chains (from any node's `child_idx`) never revisit an index, the
`child_sum` loop terminates for every node — it reaches the sentinel within
some finite fuel; and without the acyclicity precondition termination
fails: a one-node list whose node is its own next sibling makes the loop
run forever (every fuel bound is exhausted). -/
theorem c10_walk_terminates_iff_acyclic :
    (∀ (nodes : List CPNode) (node : CPNode), validLinks nodes → i32Range nodes →
      node ∈ nodes → AcyclicFrom nodes node.child_idx →
      ∃ (f sum : Nat), walkSum nodes f node.child_idx 0 = .done sum) ∧
    (validLinks nodesCyclic ∧
      ∀ (f acc : Nat), walkSum nodesCyclic f 0 acc = .fuelOut) := by
  constructor
  · intro nodes node hv hr hmem hacyc
    have hstart : InRange nodes node.child_idx := by
      rcases (hv node hmem).2 with h | ⟨ha, hb⟩
      · exact Or.inl h
      · exact Or.inr ⟨ha, hb, (hr node hmem).2.2.2⟩
    obtain ⟨m, hmN, hm⟩ := reaches_sentinel nodes hv hr node.child_idx hstart hacyc
    obtain ⟨l, hchain, hlen⟩ := chain_of_seq nodes hv hr m node.child_idx hstart hm
    exact ⟨l.length, (0 + sizeSum l) % U32,
      walk_of_chain nodes l node.child_idx hchain 0 l.length (le_refl _) (by norm_num [U32])⟩
  · refine ⟨by decide, ?_⟩
    intro f
    induction f with
    | zero => intro acc; rfl
    | succ f ih =>
      intro acc
      have hstep : walkSum nodesCyclic (f + 1) 0 acc =
          walkSum nodesCyclic f 0 ((acc + 0) % U32) := rfl
      rw [hstep]
      exact ih _

/-- C10 witness: on a single leaf node (sentinel `child_idx`) the walk
terminates. -/
theorem c10_witness :
    ∃ (f sum : Nat), walkSum saveLeaf.nodes f (-1) 0 = .done sum :=
  c10_walk_terminates_iff_acyclic.1 saveLeaf.nodes ⟨[], -1, -1, 0, 10⟩
    (by decide) (by decide) (by decide) (acyclicFrom_sentinel _)

theorem u32sub_of_le (a b : Nat) (ha : a < U32) (hb : b ≤ a) : u32sub a b = a - b := by
  have hU : U32 = 4294967296 := by unfold U32; norm_num
  unfold u32sub
  rw [hU] at ha ⊢
  omega

theorem accountMap_some (nodes : List CPNode) (fuel : Nat) :
    ∀ l : List CPNode,
      (∀ node ∈ l, ∃ cs, walkSum nodes fuel node.child_idx 0 = .done cs) →
      ∃ out, accountMap nodes fuel l = some out := by
  intro l
  induction l with
  | nil => exact fun _ => ⟨[], rfl⟩
  | cons node rest ih =>
    intro h
    obtain ⟨cs, hw⟩ := h node (by simp)
    obtain ⟨out, hout⟩ := ih (fun nd hm => h nd (by simp [hm]))
    refine ⟨(node.name, u32sub node.data_size cs, node.data_size) :: out, ?_⟩
    simp only [accountMap, hw, hout]
    rfl

theorem accountMap_get (nodes : List CPNode) (fuel : Nat) :
    ∀ (l : List CPNode) (out : List (List Nat × Nat × Nat)),
      accountMap nodes fuel l = some out →
      out.length = l.length ∧
      ∀ (i : Nat) (node : CPNode), l.get? i = some node →
        ∃ cs, walkSum nodes fuel node.child_idx 0 = .done cs ∧
          out.get? i = some (node.name, u32sub node.data_size cs, node.data_size) := by
  intro l
  induction l with
  | nil =>
    intro out h
    simp only [accountMap, Option.some.injEq] at h
    subst h
    exact ⟨rfl, fun i node hi => by simp at hi⟩
  | cons node rest ih =>
    intro out h
    simp only [accountMap] at h
    cases hw : walkSum nodes fuel node.child_idx 0 with
    | done cs =>
      rw [hw] at h
      dsimp only at h
      cases hrec : accountMap nodes fuel rest with
      | none => rw [hrec] at h; simp at h
      | some outr =>
        rw [hrec] at h
        have h2 : (node.name, u32sub node.data_size cs, node.data_size) :: outr = out := by
          have hm : Option.map
              (fun x => (node.name, u32sub node.data_size cs, node.data_size) :: x)
              (some outr) = some ((node.name, u32sub node.data_size cs, node.data_size) :: outr) :=
            rfl
          rw [hm] at h
          injection h
        subst h2
        obtain ⟨hlen, hget⟩ := ih outr hrec
        refine ⟨by simp [hlen], ?_⟩
        intro i nd hi
        cases i with
        | zero =>
          simp only [List.get?] at hi
          have hnd : nd = node := by injection hi with hh; exact hh.symm
          subst hnd
          exact ⟨cs, hw, rfl⟩
        | succ i =>
          exact hget i nd hi
    | oob => rw [hw] at h; simp at h
    | fuelOut => rw [hw] at h; simp at h

/-- C7: on a decoded node sequence with valid, in-`i32`-range, acyclic
links, the accounting pass computes, for each node `i` in original order,
`child_sum` as the sum of `data_size` over exactly the immediate-children
chain (from `nodes[i].child_idx` along `next_idx` to the sentinel) and
reports `own_bytes = data_size - child_sum` whenever that chain sum does
not exceed `data_size`; concretely, a parent of size 100 with immediate
children of sizes 30 and 20 gets `own_bytes = 50`, and a node with
sentinel `child_idx` gets `own_bytes = data_size`. -/
theorem c7_accounting_sums_immediate_children :
    (∀ save : CPSave, validLinks save.nodes → i32Range save.nodes → sizesOk save.nodes →
      (∀ node ∈ save.nodes, AcyclicFrom save.nodes node.child_idx) →
      ∃ (f : Nat) (rep : List (List Nat × Nat × Nat)), accountSave save f = some rep ∧
        rep.length = save.nodes.length ∧
        ∀ (i : Nat) (node : CPNode), save.nodes.get? i = some node →
          ∃ l, Chain save.nodes node.child_idx l ∧
            (sizeSum l ≤ node.data_size →
              rep.get? i = some (node.name, node.data_size - sizeSum l, node.data_size))) ∧
    accountSave saveParent100 3 = some [([], 50, 100), ([], 30, 30), ([], 20, 20)] ∧
    accountSave saveLeaf 1 = some [([], 10, 10)] := by
  refine ⟨?_, by decide, by decide⟩
  intro save hv hr hs hacyc
  have hchains : ∀ node ∈ save.nodes,
      ∃ l, Chain save.nodes node.child_idx l ∧ l.length ≤ save.nodes.length := by
    intro node hmem
    have hstart : InRange save.nodes node.child_idx := by
      rcases (hv node hmem).2 with h | ⟨ha, hb⟩
      · exact Or.inl h
      · exact Or.inr ⟨ha, hb, (hr node hmem).2.2.2⟩
    obtain ⟨m, hmN, hm⟩ := reaches_sentinel save.nodes hv hr node.child_idx hstart
      (hacyc node hmem)
    obtain ⟨l, hchain, hlen⟩ := chain_of_seq save.nodes hv hr m node.child_idx hstart hm
    exact ⟨l, hchain, le_trans hlen hmN⟩
  have hwalk : ∀ node ∈ save.nodes,
      ∃ cs, walkSum save.nodes save.nodes.length node.child_idx 0 = .done cs := by
    intro node hmem
    obtain ⟨l, hchain, hlen⟩ := hchains node hmem
    exact ⟨(0 + sizeSum l) % U32,
      walk_of_chain save.nodes l node.child_idx hchain 0 save.nodes.length hlen
        (by norm_num [U32])⟩
  obtain ⟨rep, hrep⟩ := accountMap_some save.nodes save.nodes.length save.nodes hwalk
  obtain ⟨hlen, hget⟩ := accountMap_get save.nodes save.nodes.length save.nodes rep hrep
  refine ⟨save.nodes.length, rep, hrep, hlen, ?_⟩
  intro i node hi
  have hmem : node ∈ save.nodes := List.get?_mem hi
  obtain ⟨l, hchain, hlchain⟩ := hchains node hmem
  refine ⟨l, hchain, fun hle => ?_⟩
  obtain ⟨cs, hw, hout⟩ := hget i node hi
  have hw2 := walk_of_chain save.nodes l node.child_idx hchain 0 save.nodes.length hlchain
    (by norm_num [U32])
  rw [hw] at hw2
  have hcs : cs = (0 + sizeSum l) % U32 := by injection hw2
  have hsize : node.data_size < U32 := hs node hmem
  have hU : U32 = 4294967296 := by unfold U32; norm_num
  have hcs2 : cs = sizeSum l := by
    rw [hcs, Nat.zero_add, Nat.mod_eq_of_lt (by omega)]
  have hsub : u32sub node.data_size cs = node.data_size - sizeSum l := by
    rw [hcs2]
    exact u32sub_of_le _ _ hsize hle
  rw [hout, hsub]

/-- C7 witness: the leaf save satisfies the link hypotheses, so the
accounting result exists and matches the chain sums. -/
theorem c7_witness :
    ∃ (f : Nat) (rep : List (List Nat × Nat × Nat)), accountSave saveLeaf f = some rep ∧
      rep.length = saveLeaf.nodes.length ∧
      ∀ (i : Nat) (node : CPNode), saveLeaf.nodes.get? i = some node →
        ∃ l, Chain saveLeaf.nodes node.child_idx l ∧
          (sizeSum l ≤ node.data_size →
            rep.get? i = some (node.name, node.data_size - sizeSum l, node.data_size)) :=
  c7_accounting_sums_immediate_children.1 saveLeaf (by decide) (by decide) (by decide)
    (fun node hmem => by
      have hnode : node = ⟨[], -1, -1, 0, 10⟩ := by simpa [saveLeaf] using hmem
      rw [hnode]
      exact acyclicFrom_sentinel _)
